import Mathlib

/-!
# A verification of the `merkle-tree` repository's core

Shallow embedding of `src/merkle_tree.rs` (the generic `MerkleTree<T: Hasher>`
implementation) together with the variant of `new` found in `src/lib.rs`.

Modelling conventions:
* `T::Hash` is required to convert to/from `Vec<u8>` (`Into`, `From`, `AsRef`);
  these conversions are modelled as the identity on byte sequences, so both
  raw data and hashes are `Bytes := List Nat`.
* The hash capability `T::hash` is an explicit parameter `hash : Bytes → Bytes`.
* Rust `Vec` indexing (`v[i]`, and `v[i] = x`) panics when out of bounds;
  fallible operations are therefore modelled in `Option`, with `none` standing
  for a panic.  Indexing that is syntactically guarded in the source
  (construction reads children of a level that is by construction twice as
  long) is modelled with `getD`.
-/

/-- Byte sequences (`Vec<u8>`), also the representation of `T::Hash` values. -/
abbrev Bytes := List Nat

/-- The Merkle tree: `levels` is root-level-first, the last list is the leaf
level (`merkle_tree.rs`, `struct MerkleTree`). -/
structure MerkleTree where
  levels : List (List Bytes)
deriving DecidableEq, Repr

/-- Assignment `v[i] = a` on a Rust `Vec`: panics (`none`) when `i` is out of
bounds, otherwise replaces the element. -/
def setQ (l : List Bytes) (i : Nat) (a : Bytes) : Option (List Bytes) :=
  if i < l.length then some (l.set i a) else none

namespace MerkleTree

/-- One parent level of `new`: entry `j` is `f` applied to the concatenation of
children `2j` and `2j+1` of `child`.  In `merkle_tree.rs` the pushed value is
`data.into()` (the raw concatenation, `f = id`); in `lib.rs` it is
`MerkleTree::hash(data)` (`f = hash`). -/
def parentWith (f : Bytes → Bytes) (child : List Bytes) (n : Nat) : List Bytes :=
  (List.range n).map fun j => f (child.getD (j * 2) [] ++ child.getD (j * 2 + 1) [])

/-- The construction loop of `new`: `for i in (0..height).rev()` pushes one
parent level per iteration, computed from `levels.last()`. -/
def buildLoop (f : Bytes → Bytes) : Nat → List (List Bytes) → List (List Bytes)
  | 0, acc => acc
  | i + 1, acc => buildLoop f i (acc ++ [parentWith f (acc.getLastD []) (2 <<< i)])

/-- `MerkleTree::new` from `merkle_tree.rs`: the leaf level is
`vec![T::hash(vec![]); 2 << height]`, parent levels are built bottom-up from
the raw concatenation of the two children (`data.into()`), and the level list
is reversed so the root level comes first. -/
def new (hash : Bytes → Bytes) (height : Nat) : MerkleTree :=
  ⟨(buildLoop id height [List.replicate (2 <<< height) (hash [])]).reverse⟩

/-- `MerkleTree::new` from `lib.rs`: identical except that each parent entry is
`MerkleTree::hash(data)`, the hash of the concatenation of the children. -/
def newHashed (hash : Bytes → Bytes) (height : Nat) : MerkleTree :=
  ⟨(buildLoop hash height [List.replicate (2 <<< height) (hash [])]).reverse⟩

/-- `MerkleTree::root`: `&self.levels[0][0]`. -/
def root (t : MerkleTree) : Bytes := (t.levels.getD 0 []).getD 0 []

/-- `MerkleTree::leaf`: `&self.levels[self.levels.len() - 1][index]`; an
out-of-bounds `index` panics (`none`). -/
def leaf (t : MerkleTree) (index : Nat) : Option Bytes :=
  match t.levels.getLast? with
  | some lv => lv[index]?
  | none => none

/-- Number of slots in the leaf level. -/
def leafCount (t : MerkleTree) : Nat := (t.levels.getLastD []).length

/-- The leaf level itself. -/
def leafLevel (t : MerkleTree) : List Bytes := t.levels.getLastD []

/-- Value of leaf slot `j` (with default `[]`). -/
def leafD (t : MerkleTree) (j : Nat) : Bytes := (t.leafLevel).getD j []

/-- Value of the node at level `i` (root-first), index `j`. -/
def nodeAt (t : MerkleTree) (i j : Nat) : Bytes := (t.levels.getD i []).getD j []

/-- The scan `.iter().enumerate().find(|(_i, x)| x.as_ref().is_empty())` over
the leaf level: index of the first entry whose byte representation is empty. -/
def findFirstEmpty : List Bytes → Option Nat
  | [] => none
  | x :: xs => if x.isEmpty then some 0 else (findFirstEmpty xs).map (· + 1)

/-- The recompute loop of `insert`:
`for i in (0..self.levels.len() - 1).rev() { index /= 2; ... }`.
Called with `k = levels.len() - 1`; the step with counter `k + 1` performs the
iteration `i = k`, reading the two children in level `k + 1` and writing their
parent in level `k`. -/
def recomputeUp (hash : Bytes → Bytes) : Nat → Nat → List (List Bytes) → Option (List (List Bytes))
  | 0, _, ls => some ls
  | k + 1, index, ls =>
    let idx := index / 2
    match ls[k + 1]?, ls[k]? with
    | some child, some cur =>
      match child[idx * 2]?, child[idx * 2 + 1]? with
      | some a, some b =>
        match setQ cur idx (hash (a ++ b)) with
        | some cur' => recomputeUp hash k idx (ls.set k cur')
        | none => none
      | _, _ => none
    | _, _ => none

/-- Inner loop of `reseize_and_insert`: `for j in index..(2 << i)`, recomputing
`levels[i][j]` from the children `levels[i+1][2j]`, `levels[i+1][2j+1]`.
The first argument is the number of iterations left (`(2 << i) - j` for the
initial call), the second the current value of `j`. -/
def fillRange (hash : Bytes → Bytes) (i : Nat) :
    Nat → Nat → List (List Bytes) → Option (List (List Bytes))
  | 0, _, ls => some ls
  | cnt + 1, j, ls =>
    match ls[i + 1]?, ls[i]? with
    | some child, some cur =>
      match child[j * 2]?, child[j * 2 + 1]? with
      | some a, some b =>
        match setQ cur j (hash (a ++ b)) with
        | some cur' => fillRange hash i cnt (j + 1) (ls.set i cur')
        | none => none
      | _, _ => none
    | _, _ => none

/-- Outer loop of `reseize_and_insert`:
`for i in (0..self.levels.len() - 1).rev() { for j in index..(2 << i) ...; index /= 2; }`. -/
def reseizeLoop (hash : Bytes → Bytes) : Nat → Nat → List (List Bytes) → Option (List (List Bytes))
  | 0, _, ls => some ls
  | k + 1, index, ls =>
    match fillRange hash k ((2 <<< k) - index) index ls with
    | some ls' => reseizeLoop hash k (index / 2) ls'
    | none => none

/-- `MerkleTree::reseize_and_insert`: prepend an empty top level, push
`T::hash(data)` onto the leaf level, resize the leaf level to twice its new
length (padding with empty byte sequences, `T::Hash::from(vec![])`), then run
the recompute loops starting at index `len / 2`.  `resize(2 * len, _)` always
grows here, so it appends `2 * len - len` empty entries. -/
def reseize_and_insert (hash : Bytes → Bytes) (data : Bytes) (t : MerkleTree) :
    Option MerkleTree :=
  let ls0 := [] :: t.levels
  match ls0.getLast? with
  | none => none
  | some leaves =>
    let leaves1 := leaves ++ [hash data]
    let len := leaves1.length
    let leaves2 := leaves1 ++ List.replicate (2 * len - len) []
    let ls1 := ls0.set (ls0.length - 1) leaves2
    match reseizeLoop hash (ls1.length - 1) (len / 2) ls1 with
    | some ls2 => some ⟨ls2⟩
    | none => none

/-- `MerkleTree::insert`: find the first empty leaf; if found, overwrite it
with `T::hash(data)` and recompute the branch above it; otherwise resize. -/
def insert (hash : Bytes → Bytes) (data : Bytes) (t : MerkleTree) : Option MerkleTree :=
  match t.levels.getLast? with
  | none => none
  | some leaves =>
    match findFirstEmpty leaves with
    | some index =>
      match setQ leaves index (hash data) with
      | none => none
      | some leaves' =>
        match recomputeUp hash (t.levels.length - 1) index
            (t.levels.set (t.levels.length - 1) leaves') with
        | some ls => some ⟨ls⟩
        | none => none
    | none => reseize_and_insert hash data t

/-- A sequence of `insert` calls, left to right. -/
def insertK (hash : Bytes → Bytes) (ds : List Bytes) (t : MerkleTree) : Option MerkleTree :=
  match ds with
  | [] => some t
  | d :: rest =>
    match insert hash d t with
    | some t' => insertK hash rest t'
    | none => none

/-- The list of levels pushed by the construction loop, leaf level first.
Proof-side characterization of `buildLoop`. -/
def freshLevels (f : Bytes → Bytes) (v : Bytes) : Nat → List (List Bytes)
  | 0 => [List.replicate (2 <<< 0) v]
  | m + 1 => List.replicate (2 <<< (m + 1)) v :: freshLevels f (f (v ++ v)) m

/-- `hash(concat(levels[k+1][2*idx], levels[k+1][2*idx+1]))`. -/
def childHash (hash : Bytes → Bytes) (ls : List (List Bytes)) (k idx : Nat) : Bytes :=
  hash ((ls.getD (k + 1) []).getD (idx * 2) [] ++ (ls.getD (k + 1) []).getD (idx * 2 + 1) [])

/-- Overwrite the single node `levels[k][idx]`. -/
def setNode (ls : List (List Bytes)) (k idx : Nat) (v : Bytes) : List (List Bytes) :=
  ls.set k ((ls.getD k []).set idx v)

/-- Total version of `recomputeUp`, defined on the in-bounds executions. -/
def recomputePure (hash : Bytes → Bytes) : Nat → Nat → List (List Bytes) → List (List Bytes)
  | 0, _, ls => ls
  | k + 1, index, ls =>
    recomputePure hash k (index / 2) (setNode ls k (index / 2) (childHash hash ls k (index / 2)))

/-- Leaves `0..k-1` filled (non-empty), every later slot empty. -/
def fillPat (t : MerkleTree) (k : Nat) : Prop :=
  (∀ j, j < k → t.leafD j ≠ []) ∧ (∀ j, k ≤ j → t.leafD j = [])

end MerkleTree

/-- Shape invariant of every tree the library constructs: at least one level,
and level `i` (root-first) has `2 <<< i` slots. -/
def WF (t : MerkleTree) : Prop :=
  1 ≤ t.levels.length ∧
    ∀ i, i < t.levels.length → ((t.levels.getD i []).length = 2 <<< i)

instance (t : MerkleTree) : Decidable (WF t) := by
  unfold WF; infer_instance

/-- `f` iterated on the duplicated seed: value of every node `k` levels above
the leaves in a freshly built tree whose leaves all hold `v`. -/
def iterF (f : Bytes → Bytes) (v : Bytes) : Nat → Bytes
  | 0 => v
  | k + 1 => f (iterF f v k ++ iterF f v k)

/-- Concrete hasher for witnesses: appends a marker byte (injective-shaped,
never returns the empty sequence on nonempty input, `sufHash [] = [7]`). -/
def sufHash : Bytes → Bytes := fun d => d ++ [7]

/-- Concrete hasher for witnesses: the identity (`idHash [] = []`). -/
def idHash : Bytes → Bytes := fun d => d

/-- The stubbed hasher of `lib.rs`: always the empty sequence. -/
def zeroHash : Bytes → Bytes := fun _ => []

/-! ## Basic index bookkeeping -/

theorem two_shiftLeft (n : Nat) : 2 <<< n = 2 * 2 ^ n := by
  rw [Nat.shiftLeft_eq]

theorem getD_set_self {α : Type} (l : List α) (i : Nat) (a d : α) (h : i < l.length) :
    (l.set i a).getD i d = a := by
  simp [List.getElem?_set_self h]

theorem getD_set_ne {α : Type} (l : List α) (i j : Nat) (a d : α) (h : i ≠ j) :
    (l.set i a).getD j d = l.getD j d := by
  simp [List.getElem?_set_ne h]

theorem getD_replicate {α : Type} {n j : Nat} (a d : α) (h : j < n) :
    (List.replicate n a).getD j d = a := by
  simp [List.getElem?_replicate, h]

theorem getLastD_eq_getD {α : Type} (l : List α) (d : α) :
    l.getLastD d = l.getD (l.length - 1) d := by
  simp [List.getLast?_eq_getElem?]

theorem getLast?_eq_some_getD {α : Type} (l : List α) (d : α) (h : 0 < l.length) :
    l.getLast? = some (l.getD (l.length - 1) d) := by
  have hlt : l.length - 1 < l.length := by omega
  simp [List.getLast?_eq_getElem?, List.getElem?_eq_getElem hlt]

theorem getD_append_left {α : Type} {l l' : List α} {i : Nat} (d : α) (h : i < l.length) :
    (l ++ l').getD i d = l.getD i d := by
  simp [List.getElem?_append_left h]

theorem getD_append_right {α : Type} {l l' : List α} {i : Nat} (d : α) (h : l.length ≤ i) :
    (l ++ l').getD i d = l'.getD (i - l.length) d := by
  simp [List.getElem?_append_right h]

/-! ## The first-empty-slot scan -/

namespace MerkleTree

theorem findFirstEmpty_eq_none (l : List Bytes) (h : ∀ x ∈ l, x ≠ []) :
    findFirstEmpty l = none := by
  induction l with
  | nil => rfl
  | cons x xs ih =>
    have hx : ¬ x.isEmpty := by
      simp only [List.isEmpty_iff]
      exact h x (by simp)
    simp only [findFirstEmpty, if_neg hx, ih fun y hy => h y (by simp [hy]),
      Option.map_none']

theorem findFirstEmpty_some (l : List Bytes) (p : Nat) (h : findFirstEmpty l = some p) :
    p < l.length ∧ l.getD p [] = [] ∧ ∀ j < p, l.getD j [] ≠ [] := by
  induction l generalizing p with
  | nil => simp [findFirstEmpty] at h
  | cons x xs ih =>
    by_cases hx : x.isEmpty
    · simp only [findFirstEmpty, if_pos hx, Option.some.injEq] at h
      subst h
      refine ⟨by simp, by simpa using List.isEmpty_iff.mp hx, by omega⟩
    · simp only [findFirstEmpty, if_neg hx, Option.map_eq_some'] at h
      obtain ⟨q, hq, rfl⟩ := h
      obtain ⟨h1, h2, h3⟩ := ih q hq
      refine ⟨by simpa using h1, by simpa using h2, ?_⟩
      intro j hj
      match j with
      | 0 => simpa using fun hnil => hx (List.isEmpty_iff.mpr hnil)
      | j' + 1 => simpa using h3 j' (by omega)

theorem findFirstEmpty_eq_some (l : List Bytes) (k : Nat) (hk : k < l.length)
    (hempty : l.getD k [] = []) (hbefore : ∀ j < k, l.getD j [] ≠ []) :
    findFirstEmpty l = some k := by
  induction l generalizing k with
  | nil => simp at hk
  | cons x xs ih =>
    match k with
    | 0 =>
      have hx : x.isEmpty := List.isEmpty_iff.mpr (by simpa using hempty)
      simp [findFirstEmpty, hx]
    | k' + 1 =>
      have hx : ¬ x.isEmpty := by
        simp only [List.isEmpty_iff]
        simpa using hbefore 0 (by omega)
      have := ih k' (by simpa using hk) (by simpa using hempty)
        (fun j hj => by simpa using hbefore (j + 1) (by omega))
      simp [findFirstEmpty, hx, this]

end MerkleTree

/-! ## Characterizing construction

Every level of a freshly built tree is constant: the leaf level holds
`hash []` everywhere, and the level `k` steps above the leaves holds
`iterF f (hash []) k` everywhere, where `f` is the parent-forming function
(`id` for `merkle_tree.rs`, the hasher itself for `lib.rs`). -/

namespace MerkleTree

theorem iterF_shift (f : Bytes → Bytes) (v : Bytes) (k : Nat) :
    iterF f (f (v ++ v)) k = iterF f v (k + 1) := by
  induction k with
  | zero => rfl
  | succ k ih => simp only [iterF, ih]

theorem parentWith_replicate (f : Bytes → Bytes) (v : Bytes) (m : Nat) :
    parentWith f (List.replicate (2 <<< (m + 1)) v) (2 <<< m) =
      List.replicate (2 <<< m) (f (v ++ v)) := by
  apply List.ext_getElem
  · simp [parentWith]
  · intro i h1 h2
    simp only [parentWith, List.getElem_map, List.getElem_range, List.getElem_replicate]
    have hi : i < 2 <<< m := by simpa [parentWith] using h1
    have h2m : 2 <<< (m + 1) = 2 * (2 <<< m) := by
      simp [two_shiftLeft, Nat.pow_succ]; ring
    have hl : i * 2 < 2 <<< (m + 1) := by omega
    have hr : i * 2 + 1 < 2 <<< (m + 1) := by omega
    rw [getD_replicate _ _ hl, getD_replicate _ _ hr]

theorem freshLevels_length (f : Bytes → Bytes) (v : Bytes) (m : Nat) :
    (freshLevels f v m).length = m + 1 := by
  induction m generalizing v with
  | zero => rfl
  | succ m ih => simp [freshLevels, ih]

theorem freshLevels_getD (f : Bytes → Bytes) (v : Bytes) (m k : Nat) (h : k ≤ m) :
    (freshLevels f v m).getD k [] =
      List.replicate (2 <<< (m - k)) (iterF f v k) := by
  induction m generalizing v k with
  | zero =>
    match k with
    | 0 => rfl
  | succ m ih =>
    match k with
    | 0 => rfl
    | k' + 1 =>
      have : (freshLevels f v (m + 1)).getD (k' + 1) [] =
          (freshLevels f (f (v ++ v)) m).getD k' [] := rfl
      rw [this, ih (f (v ++ v)) k' (by omega), iterF_shift]
      congr 2
      omega

theorem buildLoop_append (f : Bytes → Bytes) (m : Nat) :
    ∀ (acc : List (List Bytes)) (v : Bytes),
      buildLoop f m (acc ++ [List.replicate (2 <<< m) v]) = acc ++ freshLevels f v m := by
  induction m with
  | zero => intro acc v; rfl
  | succ m ih =>
    intro acc v
    have hlast : (acc ++ [List.replicate (2 <<< (m + 1)) v]).getLastD [] =
        List.replicate (2 <<< (m + 1)) v := List.getLastD_concat _ _ _
    calc buildLoop f (m + 1) (acc ++ [List.replicate (2 <<< (m + 1)) v])
        = buildLoop f m ((acc ++ [List.replicate (2 <<< (m + 1)) v]) ++
            [List.replicate (2 <<< m) (f (v ++ v))]) := by
          simp only [buildLoop, hlast, parentWith_replicate]
      _ = (acc ++ [List.replicate (2 <<< (m + 1)) v]) ++ freshLevels f (f (v ++ v)) m :=
          ih _ _
      _ = acc ++ freshLevels f v (m + 1) := by
          simp [freshLevels, List.append_assoc]

/-- The levels of a freshly built tree, root-first. -/
theorem build_levels (f hash : Bytes → Bytes) (H : Nat) :
    (buildLoop f H [List.replicate (2 <<< H) (hash [])]).reverse =
      (freshLevels f (hash []) H).reverse := by
  have := buildLoop_append f H [] (hash [])
  simpa using congrArg List.reverse this

theorem build_levels_length (f hash : Bytes → Bytes) (H : Nat) :
    (buildLoop f H [List.replicate (2 <<< H) (hash [])]).reverse.length = H + 1 := by
  rw [build_levels]
  simp [freshLevels_length]

theorem build_levels_getD (f hash : Bytes → Bytes) (H i : Nat) (h : i ≤ H) :
    (buildLoop f H [List.replicate (2 <<< H) (hash [])]).reverse.getD i [] =
      List.replicate (2 <<< i) (iterF f (hash []) (H - i)) := by
  rw [build_levels]
  have hlen : (freshLevels f (hash []) H).length = H + 1 := freshLevels_length f _ H
  have hi : i < (freshLevels f (hash []) H).length := by omega
  have hrev := List.getElem?_reverse (l := freshLevels f (hash []) H) (i := i)
    (by omega)
  simp only [List.getD_eq_getElem?_getD, hrev, hlen]
  have : H + 1 - 1 - i = H - i := by omega
  rw [this]
  have := freshLevels_getD f (hash []) H (H - i) (by omega)
  simp only [List.getD_eq_getElem?_getD] at this
  rw [this]
  congr 2
  omega

theorem new_levels_length (hash : Bytes → Bytes) (H : Nat) :
    (new hash H).levels.length = H + 1 := build_levels_length id hash H

theorem new_levels_getD (hash : Bytes → Bytes) (H i : Nat) (h : i ≤ H) :
    (new hash H).levels.getD i [] =
      List.replicate (2 <<< i) (iterF id (hash []) (H - i)) :=
  build_levels_getD id hash H i h

theorem newHashed_levels_getD (hash : Bytes → Bytes) (H i : Nat) (h : i ≤ H) :
    (newHashed hash H).levels.getD i [] =
      List.replicate (2 <<< i) (iterF hash (hash []) (H - i)) :=
  build_levels_getD hash hash H i h

theorem new_WF (hash : Bytes → Bytes) (H : Nat) : WF (new hash H) := by
  constructor
  · rw [new_levels_length]; omega
  · intro i hi
    rw [new_levels_length] at hi
    rw [new_levels_getD hash H i (by omega)]
    simp

theorem new_leafLevel (hash : Bytes → Bytes) (H : Nat) :
    (new hash H).leafLevel = List.replicate (2 <<< H) (hash []) := by
  unfold leafLevel
  rw [getLastD_eq_getD, new_levels_length]
  simpa using new_levels_getD hash H H (by omega)

theorem new_root (hash : Bytes → Bytes) (H : Nat) :
    (new hash H).root = iterF id (hash []) H := by
  unfold root
  rw [new_levels_getD hash H 0 (by omega)]
  exact getD_replicate _ _ (by simp [two_shiftLeft])

end MerkleTree

/-! ## Characterizing the insert recompute loop -/

theorem lt_length_of_getD_ne_nil (ls : List (List Bytes)) (i : Nat)
    (h : (ls.getD i []).length ≠ 0) : i < ls.length := by
  by_contra h'
  push_neg at h'
  rw [List.getD_eq_getElem?_getD, List.getElem?_eq_none (by omega)] at h
  simp at h

namespace MerkleTree

theorem setNode_length (ls : List (List Bytes)) (k i : Nat) (v : Bytes) :
    (setNode ls k i v).length = ls.length := List.length_set ..

theorem setNode_getD_ne (ls : List (List Bytes)) {k j : Nat} (i : Nat) (v : Bytes)
    (h : k ≠ j) : (setNode ls k i v).getD j [] = ls.getD j [] :=
  getD_set_ne _ _ _ _ _ h

theorem setNode_getD_self (ls : List (List Bytes)) (k i : Nat) (v : Bytes)
    (h : k < ls.length) : (setNode ls k i v).getD k [] = (ls.getD k []).set i v :=
  getD_set_self _ _ _ _ h

theorem setNode_inner_length (ls : List (List Bytes)) (k i : Nat) (v : Bytes) (j : Nat) :
    ((setNode ls k i v).getD j []).length = (ls.getD j []).length := by
  by_cases hj : k = j
  · subst hj
    by_cases hk : k < ls.length
    · rw [setNode_getD_self _ _ _ _ hk, List.length_set]
    · unfold setNode
      rw [List.set_eq_of_length_le (by omega)]
  · rw [setNode_getD_ne _ _ _ hj]

theorem recomputePure_length (hash : Bytes → Bytes) (k : Nat) :
    ∀ index ls, (recomputePure hash k index ls).length = ls.length := by
  induction k with
  | zero => intro index ls; rfl
  | succ k ih =>
    intro index ls
    rw [recomputePure, ih, setNode_length]

theorem recomputePure_getD_ge (hash : Bytes → Bytes) (k : Nat) :
    ∀ index ls j, k ≤ j →
      (recomputePure hash k index ls).getD j [] = ls.getD j [] := by
  induction k with
  | zero => intro index ls j _; rfl
  | succ k ih =>
    intro index ls j hj
    rw [recomputePure, ih _ _ j (by omega), setNode_getD_ne _ _ _ (by omega)]

theorem recomputePure_inner_length (hash : Bytes → Bytes) (k : Nat) :
    ∀ index ls j, ((recomputePure hash k index ls).getD j []).length =
      (ls.getD j []).length := by
  induction k with
  | zero => intro index ls j; rfl
  | succ k ih =>
    intro index ls j
    rw [recomputePure, ih, setNode_inner_length]

theorem recomputePure_frame (hash : Bytes → Bytes) (k : Nat) :
    ∀ index ls i j, i < k → j ≠ index / 2 ^ (k - i) →
      ((recomputePure hash k index ls).getD i []).getD j [] =
        (ls.getD i []).getD j [] := by
  induction k with
  | zero => intro _ _ _ _ h; omega
  | succ k ih =>
    intro index ls i j hi hj
    rw [recomputePure]
    by_cases hik : i = k
    · subst hik
      rw [recomputePure_getD_ge hash i _ _ i (by omega)]
      have hj' : index / 2 ≠ j := by
        intro h
        apply hj
        rw [← h]
        have : i + 1 - i = 1 := by omega
        rw [this, pow_one]
      by_cases hbound : i < ls.length
      · rw [setNode_getD_self _ _ _ _ hbound, getD_set_ne _ _ _ _ _ hj']
      · unfold setNode
        rw [List.set_eq_of_length_le (by omega)]
    · have hi' : i < k := by omega
      have hdiv : index / 2 / 2 ^ (k - i) = index / 2 ^ (k + 1 - i) := by
        rw [Nat.div_div_eq_div_mul]
        congr 1
        have : k + 1 - i = (k - i) + 1 := by omega
        rw [this, pow_succ]
        ring
      rw [ih _ _ i j hi' (by rw [hdiv]; exact hj), setNode_getD_ne _ _ _ (by omega)]

theorem recomputePure_path (hash : Bytes → Bytes) (k : Nat) :
    ∀ index ls, (∀ i, i ≤ k → (ls.getD i []).length = 2 <<< i) →
      index < 2 <<< k →
      ∀ i, i < k →
        ((recomputePure hash k index ls).getD i []).getD (index / 2 ^ (k - i)) [] =
          hash (((recomputePure hash k index ls).getD (i + 1) []).getD
                  ((index / 2 ^ (k - i)) * 2) [] ++
                ((recomputePure hash k index ls).getD (i + 1) []).getD
                  ((index / 2 ^ (k - i)) * 2 + 1) []) := by
  induction k with
  | zero => intro _ _ _ _ i hi; omega
  | succ k ih =>
    intro index ls hsz hidx i hi
    have hk_lt : k < ls.length := lt_length_of_getD_ne_nil ls k
      (by rw [hsz k (by omega)]; simp [two_shiftLeft])
    have hidx2 : index / 2 < 2 <<< k := by
      have h1 : 2 <<< (k + 1) = 2 * (2 <<< k) := by
        rw [two_shiftLeft, two_shiftLeft, pow_succ]; ring
      rw [h1] at hidx
      omega
    rw [recomputePure]
    by_cases hik : i = k
    · subst hik
      have hpow : i + 1 - i = 1 := by omega
      rw [hpow, pow_one]
      have e1 : (recomputePure hash i (index / 2)
            (setNode ls i (index / 2) (childHash hash ls i (index / 2)))).getD i [] =
          (ls.getD i []).set (index / 2) (childHash hash ls i (index / 2)) := by
        rw [recomputePure_getD_ge hash i _ _ i (by omega),
          setNode_getD_self _ _ _ _ hk_lt]
      have e2 : (recomputePure hash i (index / 2)
            (setNode ls i (index / 2) (childHash hash ls i (index / 2)))).getD (i + 1) [] =
          ls.getD (i + 1) [] := by
        rw [recomputePure_getD_ge hash i _ _ (i + 1) (by omega)]
        exact setNode_getD_ne ls _ _ (by omega)
      have hlen : index / 2 < (ls.getD i []).length := by
        rw [hsz i (by omega)]; exact hidx2
      rw [e1, e2, getD_set_self _ _ _ _ hlen]
      rfl
    · have hi' : i < k := by omega
      have hdiv : index / 2 / 2 ^ (k - i) = index / 2 ^ (k + 1 - i) := by
        rw [Nat.div_div_eq_div_mul]
        congr 1
        have : k + 1 - i = (k - i) + 1 := by omega
        rw [this, pow_succ]
        ring
      have hsz' : ∀ i', i' ≤ k →
          ((setNode ls k (index / 2) (childHash hash ls k (index / 2))).getD i' []).length =
            2 <<< i' := by
        intro i' hi'
        rw [setNode_inner_length]
        exact hsz i' (by omega)
      have := ih (index / 2) (setNode ls k (index / 2) (childHash hash ls k (index / 2)))
        hsz' hidx2 i hi'
      rw [hdiv] at this
      exact this

theorem recomputeUp_eq_pure (hash : Bytes → Bytes) (k : Nat) :
    ∀ index ls, (∀ i, i ≤ k → (ls.getD i []).length = 2 <<< i) → index < 2 <<< k →
      recomputeUp hash k index ls = some (recomputePure hash k index ls) := by
  induction k with
  | zero => intro _ _ _ _; rfl
  | succ k ih =>
    intro index ls hsz hidx
    have hdouble : 2 <<< (k + 1) = 2 * (2 <<< k) := by
      rw [two_shiftLeft, two_shiftLeft, pow_succ]; ring
    have hk1_lt : k + 1 < ls.length := lt_length_of_getD_ne_nil ls (k + 1)
      (by rw [hsz (k + 1) le_rfl]; simp [two_shiftLeft])
    have hk_lt : k < ls.length := by omega
    have hidx2 : index / 2 < 2 <<< k := by rw [hdouble] at hidx; omega
    have hchild_len : (ls.getD (k + 1) []).length = 2 <<< (k + 1) := hsz (k + 1) le_rfl
    have hcur_len : (ls.getD k []).length = 2 <<< k := hsz k (by omega)
    have h1 : ls[k + 1]? = some (ls.getD (k + 1) []) := by
      simp [List.getElem?_eq_getElem hk1_lt]
    have h2 : ls[k]? = some (ls.getD k []) := by
      simp [List.getElem?_eq_getElem hk_lt]
    have ha : (ls.getD (k + 1) [])[index / 2 * 2]? =
        some ((ls.getD (k + 1) []).getD (index / 2 * 2) []) := by
      have hb' : index / 2 * 2 < (ls.getD (k + 1) []).length := by
        rw [hchild_len, hdouble]; omega
      rw [List.getD_eq_getElem?_getD (ls.getD (k + 1) []) (index / 2 * 2),
        List.getElem?_eq_getElem hb']
      rfl
    have hb : (ls.getD (k + 1) [])[index / 2 * 2 + 1]? =
        some ((ls.getD (k + 1) []).getD (index / 2 * 2 + 1) []) := by
      have hb' : index / 2 * 2 + 1 < (ls.getD (k + 1) []).length := by
        rw [hchild_len, hdouble]; omega
      rw [List.getD_eq_getElem?_getD (ls.getD (k + 1) []) (index / 2 * 2 + 1),
        List.getElem?_eq_getElem hb']
      rfl
    have hset : setQ (ls.getD k []) (index / 2)
        (hash ((ls.getD (k + 1) []).getD (index / 2 * 2) [] ++
               (ls.getD (k + 1) []).getD (index / 2 * 2 + 1) [])) =
        some ((ls.getD k []).set (index / 2)
          (hash ((ls.getD (k + 1) []).getD (index / 2 * 2) [] ++
                 (ls.getD (k + 1) []).getD (index / 2 * 2 + 1) []))) := by
      unfold setQ
      rw [if_pos (by rw [hcur_len]; exact hidx2)]
    have hsz' : ∀ i, i ≤ k →
        ((setNode ls k (index / 2) (childHash hash ls k (index / 2))).getD i []).length =
          2 <<< i := by
      intro i hi
      rw [setNode_inner_length]
      exact hsz i (by omega)
    rw [recomputeUp, recomputePure]
    simp only [h1, h2, ha, hb, hset]
    exact ih (index / 2) _ hsz' hidx2

theorem leafLevel_eq_getD (t : MerkleTree) :
    t.leafLevel = t.levels.getD (t.levels.length - 1) [] := by
  unfold leafLevel
  exact getLastD_eq_getD _ _

theorem levels_getLast?_eq (t : MerkleTree) (h : 0 < t.levels.length) :
    t.levels.getLast? = some t.leafLevel := by
  unfold leafLevel
  rw [getLastD_eq_getD]
  exact getLast?_eq_some_getD _ _ h

/-- Successful `insert`: when a leaf slot is empty, the result is the leaf
write followed by the pure recompute pass. -/
theorem insert_eq_pure (hash : Bytes → Bytes) (d : Bytes) (t : MerkleTree) (p : Nat)
    (hwf : WF t) (hp : findFirstEmpty t.leafLevel = some p) :
    insert hash d t = some ⟨recomputePure hash (t.levels.length - 1) p
      (t.levels.set (t.levels.length - 1) (t.leafLevel.set p (hash d)))⟩ := by
  obtain ⟨hlen, hsz⟩ := hwf
  have hlast : t.levels.getLast? = some t.leafLevel := levels_getLast?_eq t (by omega)
  have hleaf_len : t.leafLevel.length = 2 <<< (t.levels.length - 1) := by
    rw [leafLevel_eq_getD]
    exact hsz (t.levels.length - 1) (by omega)
  have hplt : p < t.leafLevel.length := (findFirstEmpty_some _ _ hp).1
  have hsetQ : setQ t.leafLevel p (hash d) = some (t.leafLevel.set p (hash d)) := by
    unfold setQ
    rw [if_pos hplt]
  have hsz' : ∀ i, i ≤ t.levels.length - 1 →
      (((t.levels.set (t.levels.length - 1) (t.leafLevel.set p (hash d))).getD i []).length =
        2 <<< i) := by
    intro i hi
    by_cases hieq : i = t.levels.length - 1
    · subst hieq
      rw [getD_set_self _ _ _ _ (by omega), List.length_set]
      exact hleaf_len
    · rw [getD_set_ne _ _ _ _ _ (by omega)]
      exact hsz i (by omega)
  have hplt2 : p < 2 <<< (t.levels.length - 1) := by rw [← hleaf_len]; exact hplt
  rw [insert, hlast]
  simp only [hp, hsetQ,
    recomputeUp_eq_pure hash (t.levels.length - 1) p _ hsz' hplt2]

/-! ## The resize path always goes out of bounds

On every well-formed tree the first write of the recompute loop in
`reseize_and_insert` targets `levels[old_height][2^old_height]`, one past the
end of that level (for a single-level tree, an index inside the freshly
prepended *empty* top level), so the Rust code panics.  In the model the
whole call returns `none`. -/

theorem reseize_none (hash : Bytes → Bytes) (data : Bytes) (t : MerkleTree)
    (hwf : WF t) : reseize_and_insert hash data t = none := by
  obtain ⟨hlen, hsz⟩ := hwf
  obtain ⟨M, hM⟩ : ∃ M, t.levels.length = M + 1 := ⟨t.levels.length - 1, by omega⟩
  have hleaf_len : (t.levels.getD M []).length = 2 <<< M := hsz M (by omega)
  have hlast : ([] :: t.levels).getLast? = some (t.levels.getD M []) := by
    rw [getLast?_eq_some_getD ([] :: t.levels) [] (by simp)]
    congr 1
    simp [hM]
  have hpos : 0 < 2 ^ M := pow_pos (by norm_num) M
  obtain ⟨c, hc⟩ : ∃ c, 2 ^ M = c + 1 := ⟨2 ^ M - 1, by omega⟩
  rw [reseize_and_insert]
  simp only [hlast]
  have hlen1 : (t.levels.getD M [] ++ [hash data]).length = 2 <<< M + 1 := by
    simp only [List.length_append, List.length_singleton, hleaf_len]
  simp only [hlen1, List.length_set, List.length_cons, hM, Nat.add_sub_cancel]
  have hidx : (2 <<< M + 1) / 2 = 2 ^ M := by rw [two_shiftLeft]; omega
  rw [hidx]
  simp only [reseizeLoop]
  have hcnt : 2 <<< M - 2 ^ M = c + 1 := by rw [two_shiftLeft]; omega
  rw [hcnt]
  -- the updated level list
  have e1 : (([] :: t.levels).set (M + 1)
      (t.levels.getD M [] ++ [hash data] ++
        List.replicate (2 * (2 <<< M + 1) - (2 <<< M + 1)) []))[M + 1]? =
      some (t.levels.getD M [] ++ [hash data] ++
        List.replicate (2 * (2 <<< M + 1) - (2 <<< M + 1)) []) := by
    apply List.getElem?_set_self
    simp [hM]
  have e2 : (([] :: t.levels).set (M + 1)
      (t.levels.getD M [] ++ [hash data] ++
        List.replicate (2 * (2 <<< M + 1) - (2 <<< M + 1)) []))[M]? =
      some (([] :: t.levels).getD M []) := by
    rw [List.getElem?_set_ne (by omega)]
    have hMlt : M < ([] :: t.levels).length := by
      simp only [List.length_cons, hM]
      omega
    rw [List.getD_eq_getElem?_getD, List.getElem?_eq_getElem hMlt]
    rfl
  have hcur_le : (([] :: t.levels).getD M []).length ≤ 2 ^ M := by
    match M, hM with
    | 0, _ => simp
    | M' + 1, hM =>
      have : ([] :: t.levels).getD (M' + 1) [] = t.levels.getD M' [] := by simp
      rw [this, hsz M' (by omega), two_shiftLeft, pow_succ]
      omega
  have hlen2 : (t.levels.getD M [] ++ [hash data] ++
      List.replicate (2 * (2 <<< M + 1) - (2 <<< M + 1)) []).length =
      2 * (2 <<< M + 1) := by
    simp only [List.length_append, List.length_singleton, List.length_replicate, hleaf_len]
    omega
  simp only [fillRange, e1, e2]
  have ea : (t.levels.getD M [] ++ [hash data] ++
      List.replicate (2 * (2 <<< M + 1) - (2 <<< M + 1)) [])[2 ^ M * 2]? ≠ none := by
    rw [ne_eq, List.getElem?_eq_none_iff, hlen2, two_shiftLeft]
    omega
  have eb : (t.levels.getD M [] ++ [hash data] ++
      List.replicate (2 * (2 <<< M + 1) - (2 <<< M + 1)) [])[2 ^ M * 2 + 1]? ≠ none := by
    rw [ne_eq, List.getElem?_eq_none_iff, hlen2, two_shiftLeft]
    omega
  obtain ⟨a, ha⟩ := Option.ne_none_iff_exists'.mp ea
  obtain ⟨b, hb⟩ := Option.ne_none_iff_exists'.mp eb
  have hsetQ : setQ (([] :: t.levels).getD M []) (2 ^ M) (hash (a ++ b)) = none := by
    unfold setQ
    rw [if_neg (by omega)]
  simp only [ha, hb, hsetQ]

theorem insert_full_none (hash : Bytes → Bytes) (d : Bytes) (t : MerkleTree)
    (hwf : WF t) (hfull : findFirstEmpty t.leafLevel = none) :
    insert hash d t = none := by
  have hlast : t.levels.getLast? = some t.leafLevel := by
    obtain ⟨h1, _⟩ := hwf
    exact levels_getLast?_eq t (by omega)
  rw [insert, hlast]
  simp only [hfull]
  exact reseize_none hash d t hwf

theorem insert_WF (hash : Bytes → Bytes) (d : Bytes) (t t' : MerkleTree)
    (hwf : WF t) (h : insert hash d t = some t') : WF t' := by
  cases hffe : findFirstEmpty t.leafLevel with
  | none =>
    rw [insert_full_none hash d t hwf hffe] at h
    cases h
  | some p =>
    rw [insert_eq_pure hash d t p hwf hffe] at h
    obtain rfl := Option.some.inj h
    obtain ⟨hlen, hsz⟩ := hwf
    have hleaf_len : t.leafLevel.length = 2 <<< (t.levels.length - 1) := by
      rw [leafLevel_eq_getD]
      exact hsz (t.levels.length - 1) (by omega)
    constructor
    · show 1 ≤ (recomputePure hash (t.levels.length - 1) p
        (t.levels.set (t.levels.length - 1) (t.leafLevel.set p (hash d)))).length
      rw [recomputePure_length, List.length_set]
      omega
    · intro i hi
      show ((recomputePure hash (t.levels.length - 1) p
        (t.levels.set (t.levels.length - 1) (t.leafLevel.set p (hash d)))).getD i []).length =
        2 <<< i
      rw [recomputePure_length, List.length_set] at hi
      rw [recomputePure_inner_length]
      by_cases hieq : i = t.levels.length - 1
      · subst hieq
        rw [getD_set_self _ _ _ _ (by omega), List.length_set]
        exact hleaf_len
      · rw [getD_set_ne _ _ _ _ _ (by omega)]
        exact hsz i hi

theorem insert_leafLevel (hash : Bytes → Bytes) (d : Bytes) (t t' : MerkleTree) (p : Nat)
    (hwf : WF t) (hp : findFirstEmpty t.leafLevel = some p)
    (h : insert hash d t = some t') :
    t'.leafLevel = t.leafLevel.set p (hash d) := by
  rw [insert_eq_pure hash d t p hwf hp] at h
  obtain rfl := Option.some.inj h
  obtain ⟨hlen, hsz⟩ := hwf
  rw [leafLevel_eq_getD]
  show (recomputePure hash (t.levels.length - 1) p
      (t.levels.set (t.levels.length - 1) (t.leafLevel.set p (hash d)))).getD
    ((recomputePure hash (t.levels.length - 1) p
      (t.levels.set (t.levels.length - 1) (t.leafLevel.set p (hash d)))).length - 1) [] =
    t.leafLevel.set p (hash d)
  rw [recomputePure_length, List.length_set,
    recomputePure_getD_ge hash _ _ _ _ (by omega),
    getD_set_self _ _ _ _ (by omega)]

theorem leafCount_eq_length_leafLevel (t : MerkleTree) :
    t.leafCount = t.leafLevel.length := rfl

theorem insert_keeps_filled (hash : Bytes → Bytes) (d : Bytes) (t t' : MerkleTree) (j : Nat)
    (hwf : WF t) (h : insert hash d t = some t') (hj : t.leafD j ≠ []) :
    t'.leafD j ≠ [] := by
  cases hffe : findFirstEmpty t.leafLevel with
  | none =>
    rw [insert_full_none hash d t hwf hffe] at h
    cases h
  | some p =>
    have hll := insert_leafLevel hash d t t' p hwf hffe h
    have hpj : p ≠ j := by
      intro hpj
      subst hpj
      exact hj (findFirstEmpty_some _ _ hffe).2.1
    unfold leafD
    rw [hll, getD_set_ne _ _ _ _ _ hpj]
    exact hj

theorem insert_step (hash : Bytes → Bytes) (d : Bytes) (t : MerkleTree) (k : Nat)
    (hwf : WF t) (hfp : fillPat t k) (hk : k < t.leafCount) (hd : hash d ≠ []) :
    ∃ t', insert hash d t = some t' ∧ WF t' ∧ fillPat t' (k + 1) ∧
      t'.leafCount = t.leafCount := by
  have hffe : findFirstEmpty t.leafLevel = some k :=
    findFirstEmpty_eq_some _ k hk (hfp.2 k le_rfl) (fun j hj => hfp.1 j hj)
  have heq := insert_eq_pure hash d t k hwf hffe
  refine ⟨_, heq, insert_WF hash d t _ hwf heq, ?_, ?_⟩
  · have hll := insert_leafLevel hash d t _ k hwf hffe heq
    constructor
    · intro j hj
      unfold leafD
      rw [hll]
      by_cases hjk : j = k
      · subst hjk
        rw [getD_set_self t.leafLevel j (hash d) []
          (by rw [← leafCount_eq_length_leafLevel]; exact hk)]
        exact hd
      · rw [getD_set_ne _ _ _ _ _ (fun hkj => hjk hkj.symm)]
        exact hfp.1 j (by omega)
    · intro j hj
      unfold leafD
      rw [hll, getD_set_ne _ _ _ _ _ (by omega)]
      exact hfp.2 j (by omega)
  · have hll := insert_leafLevel hash d t _ k hwf hffe heq
    rw [leafCount_eq_length_leafLevel, leafCount_eq_length_leafLevel, hll, List.length_set]

theorem insertK_fill (hash : Bytes → Bytes) (ds : List Bytes) :
    ∀ t k, WF t → fillPat t k → k + ds.length ≤ t.leafCount →
      (∀ d ∈ ds, hash d ≠ []) →
      ∃ t', insertK hash ds t = some t' ∧ WF t' ∧ fillPat t' (k + ds.length) ∧
        t'.leafCount = t.leafCount := by
  induction ds with
  | nil =>
    intro t k hwf hfp _ _
    exact ⟨t, rfl, hwf, by simpa using hfp, rfl⟩
  | cons d rest ih =>
    intro t k hwf hfp hle hne
    have hk : k < t.leafCount := by
      simp only [List.length_cons] at hle
      omega
    obtain ⟨t1, h1, hwf1, hfp1, hcnt1⟩ := insert_step hash d t k hwf hfp hk
      (hne d (by simp))
    obtain ⟨t', h', hwf', hfp', hcnt'⟩ := ih t1 (k + 1) hwf1 hfp1
      (by simp only [List.length_cons] at hle; omega)
      (fun x hx => hne x (by simp [hx]))
    refine ⟨t', ?_, hwf', ?_, ?_⟩
    · rw [insertK, h1]
      exact h'
    · have : k + (d :: rest).length = k + 1 + rest.length := by simp; omega
      rw [this]
      exact hfp'
    · rw [hcnt', hcnt1]

theorem new_fillPat (hash : Bytes → Bytes) (H : Nat) (h0 : hash [] = []) :
    fillPat (new hash H) 0 := by
  constructor
  · intro j hj
    omega
  · intro j _
    unfold leafD
    rw [new_leafLevel, h0]
    simp [List.getD_eq_getElem?_getD, List.getElem?_replicate]
    split <;> rfl

theorem new_leafCount (hash : Bytes → Bytes) (H : Nat) :
    (new hash H).leafCount = 2 <<< H := by
  rw [leafCount_eq_length_leafLevel, new_leafLevel]
  simp

end MerkleTree

/-! ## The claims -/

/-- C1: on a well-formed tree whose first empty leaf slot is `p`, `insert`
succeeds, writes `hash(data)` into slot `p`, leaves every other leaf
unchanged, recomputes exactly one ancestor per non-leaf level — the node at
index `p` halved once per level — as the hash of the concatenation of its two
(just-updated) children, and leaves every node off that path unchanged. -/
theorem C1_insert_path_frame (hash : Bytes → Bytes) (d : Bytes) (t : MerkleTree) (p : Nat)
    (hwf : WF t) (hp : MerkleTree.findFirstEmpty t.leafLevel = some p) :
    ∃ t', MerkleTree.insert hash d t = some t' ∧
      t'.levels.length = t.levels.length ∧
      t'.leafD p = hash d ∧
      (∀ j, j ≠ p → t'.leafD j = t.leafD j) ∧
      (∀ i, i < t.levels.length - 1 →
        t'.nodeAt i (p / 2 ^ (t.levels.length - 1 - i)) =
          hash (t'.nodeAt (i + 1) (p / 2 ^ (t.levels.length - 1 - i) * 2) ++
                t'.nodeAt (i + 1) (p / 2 ^ (t.levels.length - 1 - i) * 2 + 1))) ∧
      (∀ i j, i < t.levels.length - 1 → j ≠ p / 2 ^ (t.levels.length - 1 - i) →
        t'.nodeAt i j = t.nodeAt i j) := by
  obtain ⟨hlen, hsz⟩ := hwf
  have heq := MerkleTree.insert_eq_pure hash d t p ⟨hlen, hsz⟩ hp
  have hplt : p < t.leafLevel.length := (MerkleTree.findFirstEmpty_some _ _ hp).1
  have hleaf_len : t.leafLevel.length = 2 <<< (t.levels.length - 1) := by
    rw [MerkleTree.leafLevel_eq_getD]
    exact hsz (t.levels.length - 1) (by omega)
  have hll := MerkleTree.insert_leafLevel hash d t _ p ⟨hlen, hsz⟩ hp heq
  have hsz' : ∀ i, i ≤ t.levels.length - 1 →
      (((t.levels.set (t.levels.length - 1) (t.leafLevel.set p (hash d))).getD i []).length =
        2 <<< i) := by
    intro i hi
    by_cases hieq : i = t.levels.length - 1
    · subst hieq
      rw [getD_set_self _ _ _ _ (by omega), List.length_set]
      exact hleaf_len
    · rw [getD_set_ne _ _ _ _ _ (by omega)]
      exact hsz i (by omega)
  have hplt2 : p < 2 <<< (t.levels.length - 1) := by rw [← hleaf_len]; exact hplt
  refine ⟨_, heq, ?_, ?_, ?_, ?_, ?_⟩
  · show (MerkleTree.recomputePure hash (t.levels.length - 1) p
      (t.levels.set (t.levels.length - 1) (t.leafLevel.set p (hash d)))).length =
      t.levels.length
    rw [MerkleTree.recomputePure_length, List.length_set]
  · unfold MerkleTree.leafD
    rw [hll]
    exact getD_set_self _ _ _ _ hplt
  · intro j hj
    unfold MerkleTree.leafD
    rw [hll]
    exact getD_set_ne _ _ _ _ _ (fun h => hj h.symm)
  · intro i hi
    exact MerkleTree.recomputePure_path hash (t.levels.length - 1) p _ hsz' hplt2 i hi
  · intro i j hi hj
    show ((MerkleTree.recomputePure hash (t.levels.length - 1) p
        (t.levels.set (t.levels.length - 1) (t.leafLevel.set p (hash d)))).getD i []).getD
        j [] = (t.levels.getD i []).getD j []
    rw [MerkleTree.recomputePure_frame hash (t.levels.length - 1) p _ i j hi hj,
      getD_set_ne _ _ _ _ _ (by omega)]

/-- Witness for C1: inserting `[5]` into the fresh identity-hash tree of
height 1 (whose first empty leaf is slot 0). -/
theorem C1_witness :
    ∃ t', MerkleTree.insert idHash [5] (MerkleTree.new idHash 1) = some t' ∧
      t'.levels.length = (MerkleTree.new idHash 1).levels.length ∧
      t'.leafD 0 = idHash [5] ∧
      (∀ j, j ≠ 0 → t'.leafD j = (MerkleTree.new idHash 1).leafD j) ∧
      (∀ i, i < (MerkleTree.new idHash 1).levels.length - 1 →
        t'.nodeAt i (0 / 2 ^ ((MerkleTree.new idHash 1).levels.length - 1 - i)) =
          idHash (t'.nodeAt (i + 1)
              (0 / 2 ^ ((MerkleTree.new idHash 1).levels.length - 1 - i) * 2) ++
            t'.nodeAt (i + 1)
              (0 / 2 ^ ((MerkleTree.new idHash 1).levels.length - 1 - i) * 2 + 1))) ∧
      (∀ i j, i < (MerkleTree.new idHash 1).levels.length - 1 →
        j ≠ 0 / 2 ^ ((MerkleTree.new idHash 1).levels.length - 1 - i) →
        t'.nodeAt i j = (MerkleTree.new idHash 1).nodeAt i j) :=
  C1_insert_path_frame idHash [5] (MerkleTree.new idHash 1) 0 (by decide) (by decide)

/-- C2 (code bug): the claim says `insert` always succeeds, including the
grow-and-insert branch; in fact on every well-formed full tree the scan finds
no empty slot and `reseize_and_insert` panics with an out-of-bounds write
(`none` in the model). -/
theorem C2_insert_full_panics (hash : Bytes → Bytes) (d : Bytes) (t : MerkleTree)
    (hwf : WF t) (hfull : MerkleTree.findFirstEmpty t.leafLevel = none) :
    MerkleTree.insert hash d t = none :=
  MerkleTree.insert_full_none hash d t hwf hfull

/-- Witness for C2: the full height-0 identity-hash tree reached by two
inserts; the third insert dies in the resize path. -/
theorem C2_witness : MerkleTree.insert idHash [9] ⟨[[[5], [6]]]⟩ = none :=
  C2_insert_full_panics idHash [9] ⟨[[[5], [6]]]⟩ (by decide) (by decide)

/-- C3 (code bug): in `merkle_tree.rs`, `new` stores `data.into()` — the raw
concatenation of the two children — for every internal node, not
`hash(concat(...))`; the `lib.rs` copy of `new` does hash it. -/
theorem C3_new_parent_raw_concat :
    MerkleTree.nodeAt (MerkleTree.new sufHash 1) 0 0 =
        MerkleTree.nodeAt (MerkleTree.new sufHash 1) 1 0 ++
          MerkleTree.nodeAt (MerkleTree.new sufHash 1) 1 1 ∧
      MerkleTree.nodeAt (MerkleTree.new sufHash 1) 0 0 ≠
        sufHash (MerkleTree.nodeAt (MerkleTree.new sufHash 1) 1 0 ++
          MerkleTree.nodeAt (MerkleTree.new sufHash 1) 1 1) ∧
      MerkleTree.nodeAt (MerkleTree.newHashed sufHash 1) 0 0 =
        sufHash (MerkleTree.nodeAt (MerkleTree.newHashed sufHash 1) 1 0 ++
          MerkleTree.nodeAt (MerkleTree.newHashed sufHash 1) 1 1) := by
  decide

/-- Counterexample to C4 as stated: with a hasher whose digest of empty input
is non-empty, every leaf slot of a fresh tree equals `hash([])` — not a
zero-length sentinel distinct from the hash of empty input. -/
theorem C4_counterexample :
    MerkleTree.leafD (MerkleTree.new sufHash 1) 0 = sufHash [] ∧
      sufHash [] ≠ ([] : Bytes) := by
  decide

/-- C4 amended: `new(H)` produces exactly `2^(H+1)` leaf slots, each
initialized to `hash([])` — the hash of the empty input — which is a
zero-length marker only when `hash([]) = []`. -/
theorem C4_amended_leaves (hash : Bytes → Bytes) (H : Nat) :
    MerkleTree.leafCount (MerkleTree.new hash H) = 2 <<< H ∧
    ∀ j, j < 2 <<< H → MerkleTree.leafD (MerkleTree.new hash H) j = hash [] := by
  refine ⟨MerkleTree.new_leafCount hash H, ?_⟩
  intro j hj
  unfold MerkleTree.leafD
  rw [MerkleTree.new_leafLevel]
  exact getD_replicate _ _ hj

/-- Witness for the amended C4. -/
theorem C4_amended_witness :
    MerkleTree.leafCount (MerkleTree.new sufHash 2) = 2 <<< 2 ∧
      MerkleTree.leafD (MerkleTree.new sufHash 2) 3 = sufHash [] :=
  ⟨(C4_amended_leaves sufHash 2).1, (C4_amended_leaves sufHash 2).2 3 (by decide)⟩

/-- C5 (code bug): the claim says inserting into a full tree doubles the leaf
level to `2*C` and preserves the old leaves; in fact `reseize_and_insert`
always writes out of bounds (a panic, `none` in the model) on every
well-formed tree, so no grown tree is ever produced — and the requested size
is `2*(C+1)`, not `2*C`, anyway. -/
theorem C5_reseize_panics (hash : Bytes → Bytes) (d : Bytes) (t : MerkleTree)
    (hwf : WF t) : MerkleTree.reseize_and_insert hash d t = none :=
  MerkleTree.reseize_none hash d t hwf

/-- Witness for C5 on a concrete full tree. -/
theorem C5_witness : MerkleTree.reseize_and_insert idHash [9] ⟨[[[1], [2]]]⟩ = none :=
  C5_reseize_panics idHash [9] ⟨[[[1], [2]]]⟩ (by decide)

/-- Counterexample to C6 as stated: the root level of a freshly built tree has
two entries, not `2^0 = 1`. -/
theorem C6_counterexample :
    ((MerkleTree.new sufHash 1).levels.getD 0 []).length = 2 ∧
      ((MerkleTree.new sufHash 1).levels.getD 0 []).length ≠ 2 ^ 0 := by
  decide

/-- C6 amended: a tree built with `new(H)` has `H+1` levels and level `i`
(root-first) has exactly `2^(i+1)` slots — so the root level has 2 entries and
the leaf level `2^(H+1)`; every completed `insert` preserves this shape. -/
theorem C6_amended_level_sizes (hash : Bytes → Bytes) (H : Nat) :
    (MerkleTree.new hash H).levels.length = H + 1 ∧
    (∀ i, i ≤ H → ((MerkleTree.new hash H).levels.getD i []).length = 2 <<< i) ∧
    (∀ d t t', WF t → MerkleTree.insert hash d t = some t' → WF t') := by
  refine ⟨MerkleTree.new_levels_length hash H, ?_, ?_⟩
  · intro i hi
    rw [MerkleTree.new_levels_getD hash H i hi]
    simp
  · intro d t t' hwf h
    exact MerkleTree.insert_WF hash d t t' hwf h

/-- Witness for the amended C6. -/
theorem C6_amended_witness :
    (MerkleTree.new sufHash 1).levels.length = 2 ∧
      ((MerkleTree.new sufHash 1).levels.getD 1 []).length = 2 <<< 1 ∧
      WF (⟨[[[3, 7], [9]]]⟩ : MerkleTree) :=
  ⟨(C6_amended_level_sizes sufHash 1).1,
   (C6_amended_level_sizes sufHash 1).2.1 1 (by decide),
   (C6_amended_level_sizes sufHash 1).2.2 [3] ⟨[[[], [9]]]⟩ ⟨[[[3, 7], [9]]]⟩
     (by decide) (by decide)⟩

/-- Counterexample to C7 as stated: with the `lib.rs` stub hasher (which is a
legal hasher and always returns the empty sequence) one insertion into a fresh
height-0 tree leaves leaf 0 empty, so "leaves 0..k-1 are non-empty" fails. -/
theorem C7_counterexample :
    MerkleTree.insertK zeroHash [[5]] (MerkleTree.new zeroHash 0) =
        some ⟨[[[], []]]⟩ ∧
      MerkleTree.leafD ⟨[[[], []]]⟩ 0 = [] := by
  decide

/-- C7 amended: provided `hash([]) = []` (so fresh slots are the empty marker)
and every inserted datum has a non-empty digest, `k ≤ C` insertions into a
fresh tree fill leaves `0..k-1` left-to-right, leave `k..C-1` empty, and a
non-empty leaf is never re-emptied by any completed insert. -/
theorem C7_amended_fill (hash : Bytes → Bytes) (H : Nat) (ds : List Bytes)
    (h0 : hash [] = []) (hne : ∀ d ∈ ds, hash d ≠ [])
    (hlen : ds.length ≤ 2 <<< H) :
    ∃ t', MerkleTree.insertK hash ds (MerkleTree.new hash H) = some t' ∧
      (∀ j, j < ds.length → MerkleTree.leafD t' j ≠ []) ∧
      (∀ j, ds.length ≤ j → MerkleTree.leafD t' j = []) ∧
      (∀ u u' j d, WF u → MerkleTree.insert hash d u = some u' →
        MerkleTree.leafD u j ≠ [] → MerkleTree.leafD u' j ≠ []) := by
  obtain ⟨t', h1, hwf', hfp', hcnt'⟩ := MerkleTree.insertK_fill hash ds
    (MerkleTree.new hash H) 0 (MerkleTree.new_WF hash H)
    (MerkleTree.new_fillPat hash H h0)
    (by rw [MerkleTree.new_leafCount]; omega) hne
  refine ⟨t', h1, ?_, ?_, ?_⟩
  · intro j hj
    exact hfp'.1 j (by omega)
  · intro j hj
    exact hfp'.2 j (by omega)
  · intro u u' j d hwfu h hne'
    exact MerkleTree.insert_keeps_filled hash d u u' j hwfu h hne'

/-- Witness for the amended C7 with the identity hasher and two insertions. -/
theorem C7_amended_witness :
    ∃ t', MerkleTree.insertK idHash [[5], [6]] (MerkleTree.new idHash 1) = some t' ∧
      (∀ j, j < 2 → MerkleTree.leafD t' j ≠ []) ∧
      (∀ j, 2 ≤ j → MerkleTree.leafD t' j = []) ∧
      (∀ u u' j d, WF u → MerkleTree.insert idHash d u = some u' →
        MerkleTree.leafD u j ≠ [] → MerkleTree.leafD u' j ≠ []) :=
  C7_amended_fill idHash 1 [[5], [6]] (by decide) (by decide) (by decide)

/-- C8: `leaf(index)` returns the leaf level's `index` slot for every
in-bounds index and fails fast (panics, `none` in the model) for every
out-of-bounds index — it neither clamps nor substitutes a placeholder. -/
theorem C8_leaf_bounds (t : MerkleTree) (i : Nat) :
    (i < MerkleTree.leafCount t → MerkleTree.leaf t i = some (MerkleTree.leafD t i)) ∧
    (MerkleTree.leafCount t ≤ i → MerkleTree.leaf t i = none) := by
  constructor
  · intro hi
    unfold MerkleTree.leafCount at hi
    unfold MerkleTree.leaf MerkleTree.leafD MerkleTree.leafLevel
    cases hl : t.levels.getLast? with
    | none =>
      rw [List.getLastD_eq_getLast?, hl] at hi
      simp at hi
    | some lv =>
      rw [List.getLastD_eq_getLast?, hl] at hi ⊢
      simp only [Option.getD_some] at hi ⊢
      rw [List.getD_eq_getElem?_getD lv i, List.getElem?_eq_getElem hi]
      rfl
  · intro hi
    unfold MerkleTree.leafCount at hi
    unfold MerkleTree.leaf
    cases hl : t.levels.getLast? with
    | none => rfl
    | some lv =>
      rw [List.getLastD_eq_getLast?, hl] at hi
      simp only [Option.getD_some] at hi
      exact List.getElem?_eq_none hi

/-- Witness for C8: slot 0 of a fresh 4-leaf tree is returned, slot 9 fails. -/
theorem C8_witness :
    MerkleTree.leaf (MerkleTree.new sufHash 1) 0 =
        some (MerkleTree.leafD (MerkleTree.new sufHash 1) 0) ∧
      MerkleTree.leaf (MerkleTree.new sufHash 1) 9 = none :=
  ⟨(C8_leaf_bounds (MerkleTree.new sufHash 1) 0).1 (by decide),
   (C8_leaf_bounds (MerkleTree.new sufHash 1) 9).2 (by decide)⟩

/-- C9: construction is deterministic — any two trees built by `new` with the
same hasher and height have the same root, that root is the explicit function
`iterF id (hash []) H` of the hasher and height alone, and reading the root
twice without an intervening insert gives the same value (root is a pure
accessor). -/
theorem C9_root_deterministic (hash : Bytes → Bytes) (H : Nat) (t1 t2 : MerkleTree)
    (h1 : t1 = MerkleTree.new hash H) (h2 : t2 = MerkleTree.new hash H) :
    MerkleTree.root t1 = MerkleTree.root t2 ∧
      MerkleTree.root t1 = iterF id (hash []) H ∧
      MerkleTree.root t1 = MerkleTree.root t1 := by
  subst h1
  subst h2
  exact ⟨rfl, MerkleTree.new_root hash H, rfl⟩

/-- Witness for C9 at height 2. -/
theorem C9_witness :
    MerkleTree.root (MerkleTree.new sufHash 2) = MerkleTree.root (MerkleTree.new sufHash 2) ∧
      MerkleTree.root (MerkleTree.new sufHash 2) = iterF id (sufHash []) 2 ∧
      MerkleTree.root (MerkleTree.new sufHash 2) = MerkleTree.root (MerkleTree.new sufHash 2) :=
  C9_root_deterministic sufHash 2 (MerkleTree.new sufHash 2) (MerkleTree.new sufHash 2) rfl rfl

/-- C10: `new(0)` stores a single level of two leaf slots; `root()` is exactly
leaf slot 0 (`leaf 0` returns it), leaf slot 1 never influences the root of a
single-level tree, and `insert` into any single-level tree with an empty slot
performs the leaf write and zero ancestor recomputations. -/
theorem C10_height_zero (hash : Bytes → Bytes) :
    (MerkleTree.new hash 0).levels.length = 1 ∧
    MerkleTree.leafCount (MerkleTree.new hash 0) = 2 ∧
    MerkleTree.leaf (MerkleTree.new hash 0) 0 = some (MerkleTree.root (MerkleTree.new hash 0)) ∧
    (∀ x y y' : Bytes, MerkleTree.root ⟨[[x, y]]⟩ = MerkleTree.root ⟨[[x, y']]⟩) ∧
    (∀ d t p, t.levels.length = 1 → MerkleTree.findFirstEmpty t.leafLevel = some p →
      MerkleTree.insert hash d t = some ⟨[t.leafLevel.set p (hash d)]⟩) := by
  refine ⟨MerkleTree.new_levels_length hash 0, ?_, ?_, ?_, ?_⟩
  · rw [MerkleTree.new_leafCount]
    decide
  · rw [MerkleTree.new_root]
    unfold MerkleTree.leaf
    rw [MerkleTree.levels_getLast?_eq _ (by rw [MerkleTree.new_levels_length]; omega),
      MerkleTree.new_leafLevel]
    rfl
  · intro x y y'
    rfl
  · intro d t p hlen1 hp
    obtain ⟨lv, hlv⟩ := List.length_eq_one.mp hlen1
    have hleafl : t.leafLevel = lv := by
      unfold MerkleTree.leafLevel
      rw [hlv]
      rfl
    have hplt : p < t.leafLevel.length := (MerkleTree.findFirstEmpty_some _ _ hp).1
    have hsetQ : setQ t.leafLevel p (hash d) = some (t.leafLevel.set p (hash d)) := by
      unfold setQ
      rw [if_pos hplt]
    rw [MerkleTree.insert, MerkleTree.levels_getLast?_eq t (by omega)]
    simp only [hp, hsetQ, hlen1, Nat.sub_self, MerkleTree.recomputeUp]
    rw [hlv, hleafl]
    rfl

/-- Witness for C10 with a concrete hasher and single-level tree. -/
theorem C10_witness :
    (MerkleTree.new sufHash 0).levels.length = 1 ∧
      MerkleTree.leafCount (MerkleTree.new sufHash 0) = 2 ∧
      MerkleTree.leaf (MerkleTree.new sufHash 0) 0 =
        some (MerkleTree.root (MerkleTree.new sufHash 0)) ∧
      MerkleTree.root (⟨[[[1], [2]]]⟩ : MerkleTree) =
        MerkleTree.root (⟨[[[1], [3]]]⟩ : MerkleTree) ∧
      MerkleTree.insert sufHash [3] ⟨[[[], [9]]]⟩ = some ⟨[[[3, 7], [9]]]⟩ :=
  ⟨(C10_height_zero sufHash).1, (C10_height_zero sufHash).2.1,
   (C10_height_zero sufHash).2.2.1,
   (C10_height_zero sufHash).2.2.2.1 [1] [2] [3],
   (C10_height_zero sufHash).2.2.2.2 [3] ⟨[[[], [9]]]⟩ 0 (by decide) (by decide)⟩
